import Mathlib

/-!
Verification of the journal-entry classifier in `digital_journal.py`.

Strings are modelled as `List Char`.  The Python functions `sentence_split`,
`detect_keywords`, `extract_people` and the classmethod
`JournalEntry.from_text` are translated into executable Lean definitions
below, together with the keyword vocabularies and the stop-word set they
use.  The regular expressions of the source are modelled operationally:

* `re.split(r"(?<=[.!?])\s+", text)` becomes the state machine `splitAux`
  (the Boolean records whether the scanner is inside the `\s+` run of a
  match, the accumulator holds the current piece reversed);
* `re.search(rf"\b{word}\b", sentence)` becomes `searchWord`, which tries
  the anchored match at every position;
* `NAME_PATTERN.finditer` (pattern `\b([A-Z][a-z]+(?:\s[A-Z][a-z]+)*)\b`)
  becomes `finditerF`/`parseNameF`.  The pattern's backtracking collapses
  to a deterministic rule: greedy runs of `[a-z]+` can never be usefully
  shortened (the character after the shortened run would be a word
  character, so the final `\b` would fail), hence the only choice point is
  the number of `(?:\s[A-Z][a-z]+)` group iterations, and if the maximal
  chain does not end at a word boundary the chain one shorter always does
  (it ends right before the whitespace character that started the next
  iteration).  `parseNameF` implements exactly that rule.
-/

namespace DigitalJournal

/-- Characters of the ASCII range matched by Python's `\s` and removed by
`str.strip()`: space, tab, newline, carriage return, vertical tab, form feed. -/
def isSpaceChar (c : Char) : Bool :=
  c = ' ' || c = '\t' || c = '\n' || c = '\r' || c = '\x0b' || c = '\x0c'

/-- Sentence-terminal punctuation of the split pattern `(?<=[.!?])`. -/
def isTermChar (c : Char) : Bool :=
  c = '.' || c = '!' || c = '?'

/-- Word characters for the regex `\b` boundary (ASCII `\w`): letters,
digits, underscore. -/
def isWordChar (c : Char) : Bool :=
  c.isAlphanum || c = '_'

/-- Python `str.strip()`: remove leading and trailing whitespace. -/
def stripChars (l : List Char) : List Char :=
  (l.dropWhile isSpaceChar).rdropWhile isSpaceChar

/-- Head of the reversed accumulator, i.e. the character scanned just before
the current position; the split lookbehind `(?<=[.!?])` tests it. -/
def lastIsTerm : List Char → Bool
  | [] => false
  | c :: _ => isTermChar c

/-- State machine for `re.split(r"(?<=[.!?])\s+", ·)`.  First argument:
`true` while consuming the `\s+` run of a separator match.  Second argument:
the current piece, reversed.  A separator starts at a whitespace character
whose predecessor is `.`, `!` or `?`. -/
def splitAux : Bool → List Char → List Char → List (List Char)
  | _, acc, [] => [acc.reverse]
  | true, acc, c :: cs =>
    if isSpaceChar c then splitAux true acc cs
    else splitAux false (c :: acc) cs
  | false, acc, c :: cs =>
    if isSpaceChar c && lastIsTerm acc then acc.reverse :: splitAux true [] cs
    else splitAux false (c :: acc) cs

/-- `sentence_split` of the source: strip the text, split after terminal
punctuation, strip every piece and drop the pieces that are empty after
stripping. -/
def sentence_split (text : List Char) : List (List Char) :=
  ((splitAux false [] (stripChars text)).map stripChars).filter
    (fun s => !s.isEmpty)

/-- `\b` at a position: satisfied (for a pattern whose adjacent character is
a word character) iff the neighbouring text character is absent or not a
word character. -/
def boundaryOk : Option Char → Bool
  | none => true
  | some c => !isWordChar c

/-- `w` is a prefix of `s` and the first character of `s` after `w`, if any,
is not a word character (the trailing `\b` of the search pattern). -/
def prefixMatchEnd : List Char → List Char → Bool
  | [], rest => boundaryOk rest.head?
  | _ :: _, [] => false
  | a :: w, b :: s => a == b && prefixMatchEnd w s

/-- `re.search(rf"\b{word}\b", s)`: try the anchored match at every
position; `prev` is the character immediately before `s` (`none` at the
start of the string) and governs the leading `\b`. -/
def searchWord (w : List Char) : Option Char → List Char → Bool
  | prev, [] => boundaryOk prev && prefixMatchEnd w []
  | prev, c :: cs =>
    (boundaryOk prev && prefixMatchEnd w (c :: cs)) || searchWord w (some c) cs

/-- Python `str.lower()` (ASCII). -/
def toLowerStr (l : List Char) : List Char :=
  l.map Char.toLower

/-- `detect_keywords` of the source: lowercase the sentence, then report
whether any keyword occurs in it as a whole word. -/
def detect_keywords (sentence : List Char) (keywords : List (List Char)) : Bool :=
  keywords.any (fun w => searchWord w none (toLowerStr sentence))

/-- Convert a list of string literals to the `List Char` representation. -/
def strList (l : List String) : List (List Char) :=
  l.map String.toList

def FEELING_KEYWORDS : List (List Char) := strList
  ["happy", "joy", "joyful", "glad", "excited", "content", "peaceful",
   "sad", "upset", "angry", "frustrated", "anxious", "nervous", "worried",
   "calm", "relaxed", "tired", "exhausted", "stressed", "grateful",
   "thankful", "lonely", "confident", "proud", "hopeful"]

def EVENT_KEYWORDS : List (List Char) := strList
  ["meeting", "birthday", "anniversary", "party", "presentation",
   "conference", "interview", "deadline", "vacation", "trip", "wedding",
   "graduation", "celebration", "appointment", "game", "practice",
   "ceremony"]

def HEALTH_KEYWORDS : List (List Char) := strList
  ["exercise", "workout", "gym", "run", "running", "walk", "walking",
   "yoga", "meditation", "doctor", "dentist", "medicine", "medication",
   "pill", "headache", "stomach", "flu", "cold", "fever", "pain", "ache",
   "injury", "therapy", "sleep", "rest", "hydrate", "hydrated",
   "nutrition", "diet"]

def SITUATION_KEYWORDS : List (List Char) := strList
  ["work", "office", "project", "school", "class", "lesson", "family",
   "friends", "home", "travel", "commute", "study", "exam", "shopping",
   "errand", "cooking", "cleaning", "house", "weather", "rain", "sunny",
   "storm"]

def STOP_WORDS : List (List Char) := strList
  ["I", "We", "My", "The", "A", "An", "It", "He", "She", "They", "Today",
   "Tonight", "Morning", "Evening", "Afternoon", "Later", "Yesterday",
   "Tomorrow", "Monday", "Tuesday", "Wednesday", "Thursday", "Friday",
   "Saturday", "Sunday"]

/-- One match attempt of `NAME_PATTERN` anchored at the head of the input
(the leading `\b` is checked by the caller).  Returns the matched text and
the remaining input.  Fuel-driven for structural recursion; the caller
supplies fuel of at least the input length. -/
def parseNameF : Nat → List Char → Option (List Char × List Char)
  | 0, _ => none
  | _ + 1, [] => none
  | fuel + 1, c :: cs =>
    if c.isUpper then
      let run := cs.takeWhile Char.isLower
      let rest := cs.dropWhile Char.isLower
      if run.isEmpty then none
      else
        match rest with
        | [] => some (c :: run, [])
        | d :: rest2 =>
          if isSpaceChar d then
            match parseNameF fuel rest2 with
            | some (sub, rem) => some (c :: run ++ d :: sub, rem)
            | none => some (c :: run, d :: rest2)
          else if isWordChar d then none
          else some (c :: run, d :: rest2)
    else none

/-- `NAME_PATTERN.finditer`: scan left to right, attempting a match at every
position whose preceding character is not a word character (the leading
`\b`; the first pattern character is an uppercase letter, hence a word
character); resume scanning after each match. -/
def finditerF : Nat → Bool → List Char → List (List Char)
  | 0, _, _ => []
  | _ + 1, _, [] => []
  | fuel + 1, prevWord, c :: cs =>
    if prevWord then finditerF fuel (isWordChar c) cs
    else
      match parseNameF (fuel + 1) (c :: cs) with
      | some (name, rest) => name :: finditerF fuel true rest
      | none => finditerF fuel (isWordChar c) cs

/-- All matches of `NAME_PATTERN` in the text, in order of occurrence. -/
def nameMatches (text : List Char) : List (List Char) :=
  finditerF (text.length + 1) false text

/-- Python string comparison: lexicographic on code points, a proper prefix
precedes its extensions. -/
def lexLe : List Char → List Char → Bool
  | [], _ => true
  | _ :: _, [] => false
  | a :: as, b :: bs => if a = b then lexLe as bs else decide (a < b)

/-- The order relation of Python's `sorted` on the candidate names. -/
def lexLeR (a b : List Char) : Prop := lexLe a b = true

instance : DecidableRel lexLeR := fun a b => instDecidableEqBool (lexLe a b) true

/-- `extract_people` of the source: the set of `NAME_PATTERN` matches that
are not stop words, returned sorted (a sorted list of the distinct
candidates; any comparison sort yields the same list on distinct keys). -/
def extract_people (text : List Char) : List (List Char) :=
  List.insertionSort lexLeR
    (((nameMatches text).filter (fun c => !STOP_WORDS.contains c)).dedup)

/-- Concatenate sentences with a single space between consecutive ones
(the joining operation of the round-trip property). -/
def joinSpace : List (List Char) → List Char
  | [] => []
  | [s] => s
  | s :: s2 :: rest => s ++ ' ' :: joinSpace (s2 :: rest)

/-- Is the head character absent or a non-whitespace character? -/
def headNonSpace : List Char → Bool
  | [] => true
  | c :: _ => !isSpaceChar c

/-- Whitespace normalization at the split boundaries: collapse every
whitespace run that immediately follows a terminal punctuation mark into a
single space, leaving all other characters unchanged.  First argument:
inside such a run; second: the previous character was terminal
punctuation. -/
def normAux : Bool → Bool → List Char → List Char
  | _, _, [] => []
  | true, _, c :: cs =>
    if isSpaceChar c then normAux true false cs
    else c :: normAux false (isTermChar c) cs
  | false, pt, c :: cs =>
    if isSpaceChar c && pt then ' ' :: normAux true false cs
    else c :: normAux false (isTermChar c) cs

/-- Collapse each whitespace run following `.`, `!` or `?` to one space. -/
def normBound (l : List Char) : List Char :=
  normAux false false l

/-- Split a string at whitespace characters, dropping empty fragments
(used to speak about the constituent words of an extracted candidate).
The accumulator holds the current word reversed. -/
def wordsOfAux : List Char → List Char → List (List Char)
  | acc, [] => if acc.isEmpty then [] else [acc.reverse]
  | acc, c :: cs =>
    if isSpaceChar c then
      if acc.isEmpty then wordsOfAux [] cs else acc.reverse :: wordsOfAux [] cs
    else wordsOfAux (c :: acc) cs

/-- The whitespace-separated words of a string. -/
def wordsOf (l : List Char) : List (List Char) :=
  wordsOfAux [] l

/-- Specification-side predicate: `w` occurs in `s` as a whole word, i.e.
`s` decomposes as `pre ++ w ++ post` where the character adjacent to `w`
on either side, when present, is not a word character. -/
def occursWholeWord (w s : List Char) : Prop :=
  ∃ pre post, s = pre ++ w ++ post ∧
    boundaryOk pre.getLast? = true ∧ boundaryOk post.head? = true

structure JournalEntry where
  raw_entry : List Char
  timestamp : String
  feelings : List (List Char)
  events : List (List Char)
  health : List (List Char)
  situations : List (List Char)
  people : List (List Char)
deriving DecidableEq, Repr

/-- The local `feelings` of `from_text`: sentences with a feeling keyword. -/
def feelingsOf (text : List Char) : List (List Char) :=
  (sentence_split text).filter (fun s => detect_keywords s FEELING_KEYWORDS)

/-- The local `events` of `from_text`: sentences with an event keyword. -/
def eventsOf (text : List Char) : List (List Char) :=
  (sentence_split text).filter (fun s => detect_keywords s EVENT_KEYWORDS)

/-- The local `health` of `from_text`: sentences with a health keyword. -/
def healthOf (text : List Char) : List (List Char) :=
  (sentence_split text).filter (fun s => detect_keywords s HEALTH_KEYWORDS)

/-- The local `categorized_sentences` of `from_text` (a Python set; only
membership is used, so a list models it). -/
def categorizedOf (text : List Char) : List (List Char) :=
  feelingsOf text ++ eventsOf text ++ healthOf text

/-- The local `situations` of `from_text`: sentences with a situation
keyword that were not already categorized. -/
def situationsOf (text : List Char) : List (List Char) :=
  (sentence_split text).filter
    (fun s => !(categorizedOf text).contains s && detect_keywords s SITUATION_KEYWORDS)

/-- `JournalEntry.from_text`.  The timestamp parameter stands for the
explicitly supplied timestamp already rendered by
`datetime.isoformat(timespec="seconds")`, which is a pure function of the
datetime value; the `datetime.now()` default of the source is outside the
model. -/
def JournalEntry.from_text (entry_text : List Char) (timestamp : String) :
    JournalEntry :=
  { raw_entry := stripChars entry_text
    timestamp := timestamp
    feelings := feelingsOf entry_text
    events := eventsOf entry_text
    health := healthOf entry_text
    situations := situationsOf entry_text
    people := extract_people entry_text }

/-! Basic lemmas about stripping. -/

theorem dropWhile_of_head_not {α : Type} {p : α → Bool} {l : List α}
    (h : ∀ c, l.head? = some c → p c = false) : List.dropWhile p l = l := by
  cases l with
  | nil => rfl
  | cons a l => simp [List.dropWhile_cons, h a rfl]

theorem dropWhile_rdropWhile_dropWhile (p : Char → Bool) (l : List Char) :
    List.dropWhile p (List.rdropWhile p (List.dropWhile p l)) =
      List.rdropWhile p (List.dropWhile p l) := by
  apply dropWhile_of_head_not
  intro c hc
  obtain ⟨t, ht⟩ := List.rdropWhile_prefix p (List.dropWhile p l)
  have hnot := List.head?_dropWhile_not p l
  rw [← ht, List.head?_append] at hnot
  rw [hc] at hnot
  simpa using hnot

theorem stripChars_idem (l : List Char) :
    stripChars (stripChars l) = stripChars l := by
  unfold stripChars
  rw [dropWhile_rdropWhile_dropWhile, List.rdropWhile_idempotent]

theorem stripChars_eq_nil_iff (l : List Char) :
    stripChars l = [] ↔ ∀ c ∈ l, isSpaceChar c = true := by
  unfold stripChars
  rw [List.rdropWhile_eq_nil_iff]
  constructor
  · intro h c hc
    rw [← List.takeWhile_append_dropWhile (p := isSpaceChar) (l := l)] at hc
    rcases List.mem_append.mp hc with h1 | h2
    · exact List.mem_takeWhile_imp h1
    · exact h c h2
  · intro h c hc
    exact h c ((List.dropWhile_suffix (l := l) isSpaceChar).subset hc)

/-! Concrete inputs used by the scenario claims. -/

def c1Text : List Char :=
  ("Today was my birthday party and I felt so grateful. It rained all day though.").toList

def c1First : List Char :=
  ("Today was my birthday party and I felt so grateful.").toList

def c1Second : List Char :=
  ("It rained all day though.").toList

/-- C1 (counterexample): at the fixed timestamp `2024-01-01T00:00:00` the
classifier does NOT put the second sentence into `situations`: whole-word
matching means `"rained"` does not match the situation keyword `"rain"`,
and no other situation keyword occurs, so `situations` is empty rather
than `["It rained all day though."]` as the claim states. -/
theorem C1_scenario_counterexample :
    (JournalEntry.from_text c1Text "2024-01-01T00:00:00").situations ≠ [c1Second] := by
  decide

/-- C1 (amended): for the input text of end-to-end scenario 2 and any fixed
timestamp, classification yields events = [first sentence], feelings =
[first sentence] (the same sentence in both), health = [], situations = []
(the second sentence matches no situation keyword as a whole word), and
people = []. -/
theorem C1_scenario_amended (ts : String) :
    (JournalEntry.from_text c1Text ts).events = [c1First] ∧
    (JournalEntry.from_text c1Text ts).feelings = [c1First] ∧
    (JournalEntry.from_text c1Text ts).health = [] ∧
    (JournalEntry.from_text c1Text ts).situations = [] ∧
    (JournalEntry.from_text c1Text ts).people = [] := by
  refine ⟨?_, ?_, ?_, ?_, ?_⟩
  · show eventsOf c1Text = [c1First]
    decide
  · show feelingsOf c1Text = [c1First]
    decide
  · show healthOf c1Text = []
    decide
  · show situationsOf c1Text = []
    decide
  · show extract_people c1Text = []
    decide

/-- C3: for every input text (and timestamp), a sentence that appears in
the feelings, events, or health list of the resulting entry is absent from
the situations list. -/
theorem C3_situations_exclusive (text : List Char) (ts : String) (s : List Char)
    (h : s ∈ (JournalEntry.from_text text ts).feelings ∨
         s ∈ (JournalEntry.from_text text ts).events ∨
         s ∈ (JournalEntry.from_text text ts).health) :
    s ∉ (JournalEntry.from_text text ts).situations := by
  intro hs
  have hs' : s ∈ situationsOf text := hs
  have h' : s ∈ categorizedOf text := by
    have hf : s ∈ feelingsOf text ∨ s ∈ eventsOf text ∨ s ∈ healthOf text := h
    unfold categorizedOf
    simp only [List.mem_append]
    tauto
  unfold situationsOf at hs'
  rw [List.mem_filter, Bool.and_eq_true] at hs'
  have hc : (categorizedOf text).contains s = true := List.elem_iff.mpr h'
  have hn := hs'.2.1
  rw [hc] at hn
  simp at hn

theorem C3_situations_exclusive_witness :
    ("I felt happy.").toList ∈
      (JournalEntry.from_text ("I felt happy. It was sunny.").toList "T").feelings ∧
    ("I felt happy.").toList ∉
      (JournalEntry.from_text ("I felt happy. It was sunny.").toList "T").situations :=
  ⟨by decide, C3_situations_exclusive _ _ _ (Or.inl (by decide))⟩

/-- C7: classification is deterministic and side-effect free; constructing
an entry twice from the same text and the same explicitly supplied
timestamp yields identical records, field for field. -/
theorem C7_deterministic (text : List Char) (ts : String) :
    JournalEntry.from_text text ts = JournalEntry.from_text text ts ∧
    (JournalEntry.from_text text ts).raw_entry = (JournalEntry.from_text text ts).raw_entry ∧
    (JournalEntry.from_text text ts).timestamp = (JournalEntry.from_text text ts).timestamp ∧
    (JournalEntry.from_text text ts).feelings = (JournalEntry.from_text text ts).feelings ∧
    (JournalEntry.from_text text ts).events = (JournalEntry.from_text text ts).events ∧
    (JournalEntry.from_text text ts).health = (JournalEntry.from_text text ts).health ∧
    (JournalEntry.from_text text ts).situations = (JournalEntry.from_text text ts).situations ∧
    (JournalEntry.from_text text ts).people = (JournalEntry.from_text text ts).people :=
  ⟨rfl, rfl, rfl, rfl, rfl, rfl, rfl, rfl⟩

/-- C9: the `raw_entry` field equals the input text with leading and
trailing whitespace stripped — not the input text verbatim (second
conjunct: a padded input is changed by the stripping). -/
theorem C9_raw_entry_stripped :
    (∀ text ts, (JournalEntry.from_text text ts).raw_entry = stripChars text) ∧
    (∀ ts, (JournalEntry.from_text (" hi. ").toList ts).raw_entry ≠ (" hi. ").toList) :=
  ⟨fun _ _ => rfl, fun _ => by
    show stripChars (" hi. ").toList ≠ (" hi. ").toList
    decide⟩

/-! Lemmas for the whitespace-only and no-terminator edge cases. -/

theorem isUpper_eq_false_of_space {c : Char} (h : isSpaceChar c = true) :
    c.isUpper = false := by
  unfold isSpaceChar at h
  simp only [Bool.or_eq_true, decide_eq_true_eq] at h
  rcases h with ((((h | h) | h) | h) | h) | h <;> subst h <;> decide

theorem parseNameF_none_of_not_upper {fuel : Nat} {c : Char} {cs : List Char}
    (h : c.isUpper = false) : parseNameF fuel (c :: cs) = none := by
  cases fuel with
  | zero => rfl
  | succ f => simp [parseNameF, h]

theorem finditerF_all_space :
    ∀ (fuel : Nat) (pw : Bool) (l : List Char),
      (∀ c ∈ l, isSpaceChar c = true) → finditerF fuel pw l = [] := by
  intro fuel
  induction fuel with
  | zero => intro pw l _; rfl
  | succ f ih =>
    intro pw l h
    cases l with
    | nil => rfl
    | cons c cs =>
      have hc : isSpaceChar c = true := h c (List.mem_cons_self c cs)
      have hcs : ∀ x ∈ cs, isSpaceChar x = true := fun x hx => h x (List.mem_cons_of_mem c hx)
      cases pw with
      | true => simpa [finditerF] using ih (isWordChar c) cs hcs
      | false =>
        have hu : c.isUpper = false := isUpper_eq_false_of_space hc
        simp [finditerF, parseNameF_none_of_not_upper hu]
        exact ih (isWordChar c) cs hcs

theorem sentence_split_of_strip_nil {text : List Char} (h : stripChars text = []) :
    sentence_split text = [] := by
  unfold sentence_split
  rw [h]
  rfl

/-- C8: on empty or whitespace-only text (any timestamp) the classifier
produces an entry whose feelings, events, health, situations and people
lists are all empty (and in the shallow embedding it is a total function,
so it cannot raise). -/
theorem C8_whitespace_text (text : List Char) (ts : String)
    (h : ∀ c ∈ text, isSpaceChar c = true) :
    (JournalEntry.from_text text ts).feelings = [] ∧
    (JournalEntry.from_text text ts).events = [] ∧
    (JournalEntry.from_text text ts).health = [] ∧
    (JournalEntry.from_text text ts).situations = [] ∧
    (JournalEntry.from_text text ts).people = [] := by
  have hsplit : sentence_split text = [] :=
    sentence_split_of_strip_nil ((stripChars_eq_nil_iff text).mpr h)
  have hpeople : extract_people text = [] := by
    unfold extract_people nameMatches
    rw [finditerF_all_space (text.length + 1) false text h]
    rfl
  refine ⟨?_, ?_, ?_, ?_, hpeople⟩
  · show feelingsOf text = []
    unfold feelingsOf
    rw [hsplit]
    rfl
  · show eventsOf text = []
    unfold eventsOf
    rw [hsplit]
    rfl
  · show healthOf text = []
    unfold healthOf
    rw [hsplit]
    rfl
  · show situationsOf text = []
    unfold situationsOf
    rw [hsplit]
    rfl

theorem C8_whitespace_text_witness :
    (∀ c ∈ ("  ").toList, isSpaceChar c = true) ∧
    (JournalEntry.from_text ("  ").toList "T").feelings = [] ∧
    (JournalEntry.from_text ("  ").toList "T").events = [] ∧
    (JournalEntry.from_text ("  ").toList "T").health = [] ∧
    (JournalEntry.from_text ("  ").toList "T").situations = [] ∧
    (JournalEntry.from_text ("  ").toList "T").people = [] :=
  ⟨by decide, C8_whitespace_text _ "T" (by decide)⟩

/-! Lemmas for the sentence-splitter contract. -/

theorem mem_stripChars {c : Char} {l : List Char} (h : c ∈ stripChars l) : c ∈ l :=
  (List.dropWhile_suffix isSpaceChar).subset
    (( List.rdropWhile_prefix isSpaceChar _).subset h)

theorem splitAux_no_term :
    ∀ (input acc : List Char),
      (∀ c ∈ input, isTermChar c = false) → (∀ c ∈ acc, isTermChar c = false) →
      splitAux false acc input = [acc.reverse ++ input] := by
  intro input
  induction input with
  | nil => intro acc _ _; simp [splitAux]
  | cons c cs ih =>
    intro acc hin hacc
    have hcond : (isSpaceChar c && lastIsTerm acc) = false := by
      cases acc with
      | nil => simp [lastIsTerm]
      | cons a as => simp [lastIsTerm, hacc a (List.mem_cons_self a as)]
    have hin' : ∀ x ∈ cs, isTermChar x = false := fun x hx => hin x (List.mem_cons_of_mem c hx)
    have hacc' : ∀ x ∈ c :: acc, isTermChar x = false := by
      intro x hx
      rcases List.mem_cons.mp hx with rfl | hx
      · exact hin x (List.mem_cons_self x cs)
      · exact hacc x hx
    simp only [splitAux, hcond, Bool.false_eq_true, if_false]
    rw [ih (c :: acc) hin' hacc']
    simp

theorem stripChars_ne_nil {text : List Char} (h : ¬ ∀ c ∈ text, isSpaceChar c = true) :
    stripChars text ≠ [] := fun hh => h ((stripChars_eq_nil_iff text).mp hh)

/-- C5: the sentence splitter yields exactly one sentence — the whole
trimmed input — on non-whitespace text without terminal punctuation;
yields the empty list on whitespace-only text; and every sentence it
yields is non-empty and trimmed. -/
theorem C5_split_edge_cases (text : List Char) :
    ((¬ ∀ c ∈ text, isSpaceChar c = true) → (∀ c ∈ text, isTermChar c = false) →
       sentence_split text = [stripChars text]) ∧
    ((∀ c ∈ text, isSpaceChar c = true) → sentence_split text = []) ∧
    (∀ s ∈ sentence_split text, s ≠ [] ∧ stripChars s = s) := by
  refine ⟨?_, ?_, ?_⟩
  · intro hns hterm
    have hsub : ∀ c ∈ stripChars text, isTermChar c = false :=
      fun c hc => hterm c (mem_stripChars hc)
    have hne : stripChars text ≠ [] := stripChars_ne_nil hns
    unfold sentence_split
    rw [splitAux_no_term (stripChars text) [] hsub (by simp)]
    have hie : (stripChars text).isEmpty = false := by
      cases he : stripChars text with
      | nil => exact absurd he hne
      | cons a as => rfl
    simp [List.filter, stripChars_idem, hie]
  · intro h
    exact sentence_split_of_strip_nil ((stripChars_eq_nil_iff text).mpr h)
  · intro s hs
    unfold sentence_split at hs
    rw [List.mem_filter] at hs
    obtain ⟨hmap, hne⟩ := hs
    rw [List.mem_map] at hmap
    obtain ⟨p, -, rfl⟩ := hmap
    refine ⟨?_, stripChars_idem p⟩
    intro hnil
    rw [hnil] at hne
    simp at hne

theorem C5_split_edge_cases_witness :
    (¬ ∀ c ∈ ("hello world").toList, isSpaceChar c = true) ∧
    (∀ c ∈ ("hello world").toList, isTermChar c = false) ∧
    sentence_split ("hello world").toList = [stripChars ("hello world").toList] ∧
    sentence_split (" ").toList = [] :=
  ⟨by decide, by decide,
   (C5_split_edge_cases _).1 (by decide) (by decide),
   (C5_split_edge_cases _).2.1 (by decide)⟩

/-! The keyword matcher: equivalence of the positionwise search with the
declarative decomposition-based occurrence predicate. -/

theorem getLast?_cons_or (a : Char) (l : List Char) :
    (a :: l).getLast? = l.getLast?.or (some a) := by
  induction l generalizing a with
  | nil => rfl
  | cons b l ih =>
    rw [List.getLast?_cons_cons, ih b]
    cases l.getLast? <;> rfl

theorem prefixMatchEnd_iff (w s : List Char) :
    prefixMatchEnd w s = true ↔
      ∃ post, s = w ++ post ∧ boundaryOk post.head? = true := by
  induction w generalizing s with
  | nil =>
    simp only [prefixMatchEnd, List.nil_append]
    constructor
    · intro h
      exact ⟨s, rfl, h⟩
    · rintro ⟨post, rfl, h⟩
      exact h
  | cons a w ih =>
    cases s with
    | nil =>
      simp [prefixMatchEnd]
    | cons b s =>
      simp only [prefixMatchEnd, Bool.and_eq_true, beq_iff_eq]
      rw [ih]
      constructor
      · rintro ⟨rfl, post, rfl, h⟩
        exact ⟨post, rfl, h⟩
      · rintro ⟨post, heq, h⟩
        rw [List.cons_append] at heq
        injection heq with h1 h2
        exact ⟨h1.symm, post, h2, h⟩

theorem searchWord_iff (w : List Char) :
    ∀ (s : List Char) (prev : Option Char),
      searchWord w prev s = true ↔
        ∃ pre post, s = pre ++ w ++ post ∧
          boundaryOk (pre.getLast?.or prev) = true ∧ boundaryOk post.head? = true := by
  intro s
  induction s with
  | nil =>
    intro prev
    simp only [searchWord, Bool.and_eq_true]
    rw [prefixMatchEnd_iff]
    constructor
    · rintro ⟨hb, post, hpost, hb2⟩
      obtain ⟨hw, hp⟩ := List.append_eq_nil.mp hpost.symm
      subst hw
      subst hp
      exact ⟨[], [], rfl, hb, hb2⟩
    · rintro ⟨pre, post, heq, hb1, hb2⟩
      obtain ⟨hpw, hp⟩ := List.append_eq_nil.mp heq.symm
      obtain ⟨hpre, hw⟩ := List.append_eq_nil.mp hpw
      subst hpre
      subst hw
      subst hp
      exact ⟨hb1, [], rfl, hb2⟩
  | cons c cs ih =>
    intro prev
    simp only [searchWord, Bool.or_eq_true, Bool.and_eq_true]
    rw [prefixMatchEnd_iff, ih (some c)]
    constructor
    · rintro (⟨hb, post, heq, hb2⟩ | ⟨pre, post, heq, hb1, hb2⟩)
      · exact ⟨[], post, by simpa using heq, by simpa using hb, hb2⟩
      · refine ⟨c :: pre, post, ?_, ?_, hb2⟩
        · simp [heq]
        · rw [getLast?_cons_or]
          cases hg : pre.getLast? <;> simp [Option.or, hg] at hb1 ⊢ <;> exact hb1
    · rintro ⟨pre, post, heq, hb1, hb2⟩
      cases pre with
      | nil =>
        left
        simp only [List.nil_append] at heq
        simp only [List.getLast?_nil, Option.or] at hb1
        exact ⟨hb1, post, heq, hb2⟩
      | cons p pre' =>
        right
        rw [List.cons_append, List.cons_append] at heq
        injection heq with h1 h2
        subst h1
        refine ⟨pre', post, by simpa using h2, ?_, hb2⟩
        rw [getLast?_cons_or] at hb1
        cases hg : pre'.getLast? <;> simp [Option.or, hg] at hb1 ⊢ <;> exact hb1

/-- C2: the keyword matcher returns true exactly when some vocabulary word
occurs in the (lowercased) sentence as a word-boundary-delimited whole
word; in particular "gamer" does not match a vocabulary containing "game",
while "game night" does. -/
theorem C2_keyword_matcher (sentence : List Char) (keywords : List (List Char)) :
    (detect_keywords sentence keywords = true ↔
       ∃ w ∈ keywords, occursWholeWord w (toLowerStr sentence)) ∧
    detect_keywords ("I was a gamer").toList [("game").toList] = false ∧
    detect_keywords ("we had game night").toList [("game").toList] = true := by
  refine ⟨?_, by decide, by decide⟩
  unfold detect_keywords
  rw [List.any_eq_true]
  constructor
  · rintro ⟨w, hw, hsearch⟩
    obtain ⟨pre, post, heq, h1, h2⟩ :=
      (searchWord_iff w (toLowerStr sentence) none).mp hsearch
    rw [Option.or_none] at h1
    exact ⟨w, hw, pre, post, heq, h1, h2⟩
  · rintro ⟨w, hw, pre, post, heq, h1, h2⟩
    refine ⟨w, hw, (searchWord_iff w (toLowerStr sentence) none).mpr ?_⟩
    refine ⟨pre, post, heq, ?_, h2⟩
    rw [Option.or_none]
    exact h1

theorem C2_keyword_matcher_witness :
    detect_keywords ("I was a gamer").toList [("game").toList] = false ∧
    detect_keywords ("we had game night").toList [("game").toList] = true :=
  ⟨(C2_keyword_matcher ("I was a gamer").toList [("game").toList]).2.1,
   (C2_keyword_matcher ("we had game night").toList [("game").toList]).2.2⟩

/-! The name extractor: ordering, de-duplication, stop-word filtering. -/

theorem lexLe_total (a b : List Char) : lexLeR a b ∨ lexLeR b a := by
  unfold lexLeR
  induction a generalizing b with
  | nil => left; rfl
  | cons x xs ih =>
    cases b with
    | nil => right; rfl
    | cons y ys =>
      by_cases hxy : x = y
      · subst hxy
        simp only [lexLe, if_pos rfl]
        exact ih ys
      · rcases lt_or_gt_of_ne hxy with h | h
        · left
          simp [lexLe, hxy, h]
        · right
          simp [lexLe, Ne.symm hxy, h]

theorem lexLe_trans :
    ∀ {a b c : List Char}, lexLeR a b → lexLeR b c → lexLeR a c := by
  unfold lexLeR
  intro a
  induction a with
  | nil => intro b c _ _; rfl
  | cons x xs ih =>
    intro b c h1 h2
    cases b with
    | nil => exact absurd h1 (by simp [lexLe])
    | cons y ys =>
      cases c with
      | nil => exact absurd h2 (by simp [lexLe])
      | cons z zs =>
        simp only [lexLe] at h1 h2 ⊢
        by_cases hxy : x = y
        · subst hxy
          rw [if_pos rfl] at h1
          by_cases hyz : x = z
          · subst hyz
            rw [if_pos rfl] at h2 ⊢
            exact ih h1 h2
          · rw [if_neg hyz] at h2 ⊢
            exact h2
        · rw [if_neg hxy] at h1
          by_cases hyz : y = z
          · subst hyz
            rw [if_neg hxy]
            exact h1
          · rw [if_neg hyz] at h2
            have hxz : x < z := lt_trans (of_decide_eq_true h1) (of_decide_eq_true h2)
            have hne : x ≠ z := ne_of_lt hxz
            rw [if_neg hne]
            exact decide_eq_true hxz

theorem extract_people_mem_iff (text : List Char) (c : List Char) :
    c ∈ extract_people text ↔ c ∈ nameMatches text ∧ c ∉ STOP_WORDS := by
  unfold extract_people
  rw [(List.perm_insertionSort lexLeR _).mem_iff, List.mem_dedup, List.mem_filter]
  constructor
  · rintro ⟨hm, hs⟩
    refine ⟨hm, fun hmem => ?_⟩
    have hc : STOP_WORDS.contains c = true := List.elem_iff.mpr hmem
    rw [Bool.not_eq_true'] at hs
    rw [hc] at hs
    cases hs
  · rintro ⟨hm, hs⟩
    refine ⟨hm, ?_⟩
    rw [Bool.not_eq_true']
    cases he : STOP_WORDS.contains c with
    | false => rfl
    | true => exact absurd (List.elem_iff.mp he) hs

/-- C6: for every input text the extracted people list is sorted in
lexicographic order and de-duplicated; a candidate is a `NAME_PATTERN`
match (so a maximal run of Titlecase words such as "John Smith" is one
single candidate) and is dropped exactly when the entire candidate string
is a stop word — a multi-word candidate containing the stop word "Today"
as a constituent is kept, while the single-word candidate "Today" is
dropped. -/
theorem C6_extract_people_sorted (text : List Char) :
    List.Sorted lexLeR (extract_people text) ∧
    (extract_people text).Nodup ∧
    (∀ c, c ∈ extract_people text ↔ c ∈ nameMatches text ∧ c ∉ STOP_WORDS) ∧
    nameMatches ("John Smith met Bob and Alice").toList =
      strList ["John Smith", "Bob", "Alice"] ∧
    extract_people ("John Smith met Bob and Alice").toList =
      strList ["Alice", "Bob", "John Smith"] ∧
    extract_people ("Today we met John Smith").toList = strList ["John Smith"] ∧
    extract_people ("Today John visited").toList = strList ["Today John"] := by
  haveI : IsTotal (List Char) lexLeR := ⟨lexLe_total⟩
  haveI : IsTrans (List Char) lexLeR := ⟨fun _ _ _ => lexLe_trans⟩
  refine ⟨?_, ?_, extract_people_mem_iff text, by decide, by decide, by decide, by decide⟩
  · exact List.sorted_insertionSort lexLeR _
  · exact (List.perm_insertionSort lexLeR _).symm.nodup (List.nodup_dedup _)

/-! Shape of `NAME_PATTERN` matches: every constituent word is an
uppercase letter followed by at least one lowercase letter. -/

theorem isLower_eq_false_of_space {c : Char} (h : isSpaceChar c = true) :
    c.isLower = false := by
  unfold isSpaceChar at h
  simp only [Bool.or_eq_true, decide_eq_true_eq] at h
  rcases h with ((((h | h) | h) | h) | h) | h <;> subst h <;> decide

theorem isSpaceChar_eq_false_of_upper {c : Char} (h : c.isUpper = true) :
    isSpaceChar c = false := by
  cases hs : isSpaceChar c with
  | false => rfl
  | true => rw [isUpper_eq_false_of_space hs] at h; cases h

theorem isSpaceChar_eq_false_of_lower {c : Char} (h : c.isLower = true) :
    isSpaceChar c = false := by
  cases hs : isSpaceChar c with
  | false => rfl
  | true => rw [isLower_eq_false_of_space hs] at h; cases h

theorem wordsOfAux_append_no_space (w : List Char)
    (hw : ∀ x ∈ w, isSpaceChar x = false) :
    ∀ (acc t : List Char), wordsOfAux acc (w ++ t) = wordsOfAux (w.reverse ++ acc) t := by
  induction w with
  | nil => intro acc t; simp
  | cons x xs ih =>
    intro acc t
    have hx : isSpaceChar x = false := hw x (List.mem_cons_self x xs)
    have hxs : ∀ y ∈ xs, isSpaceChar y = false :=
      fun y hy => hw y (List.mem_cons_of_mem x hy)
    simp only [List.cons_append, wordsOfAux, hx, Bool.false_eq_true, if_false,
      List.append_eq]
    rw [ih hxs (x :: acc) t]
    simp

theorem wordsOf_no_space (w : List Char) (hw : ∀ x ∈ w, isSpaceChar x = false)
    (hne : w ≠ []) : wordsOf w = [w] := by
  unfold wordsOf
  have h0 := wordsOfAux_append_no_space w hw [] []
  rw [List.append_nil, List.append_nil] at h0
  rw [h0]
  have hre : w.reverse.isEmpty = false := by
    cases hr : w.reverse with
    | nil => exact absurd (List.reverse_eq_nil_iff.mp hr) hne
    | cons a as => rfl
  simp [wordsOfAux, hre]

theorem wordsOf_cons_space (w : List Char) (d : Char) (rest : List Char)
    (hw : ∀ x ∈ w, isSpaceChar x = false) (hne : w ≠ [])
    (hd : isSpaceChar d = true) :
    wordsOf (w ++ d :: rest) = w :: wordsOf rest := by
  unfold wordsOf
  rw [show w ++ d :: rest = w ++ (d :: rest) from rfl,
      wordsOfAux_append_no_space w hw [] (d :: rest), List.append_nil]
  have hre : w.reverse.isEmpty = false := by
    cases hr : w.reverse with
    | nil => exact absurd (List.reverse_eq_nil_iff.mp hr) hne
    | cons a as => rfl
  simp [wordsOfAux, hd, hre]

theorem token_good_of_upper_run {c : Char} {run : List Char} (hu : c.isUpper = true)
    (hne : run ≠ []) (hlow : ∀ x ∈ run, x.isLower = true) :
    ∀ w ∈ wordsOf (c :: run),
      ∃ c' r, w = c' :: r ∧ c'.isUpper = true ∧ r ≠ [] ∧ ∀ x ∈ r, x.isLower = true := by
  have hnos : ∀ x ∈ c :: run, isSpaceChar x = false := by
    intro x hx
    rcases List.mem_cons.mp hx with rfl | hx
    · exact isSpaceChar_eq_false_of_upper hu
    · exact isSpaceChar_eq_false_of_lower (hlow x hx)
  rw [wordsOf_no_space _ hnos (by simp)]
  intro w hw
  rw [List.mem_singleton] at hw
  subst hw
  exact ⟨c, run, rfl, hu, hne, hlow⟩

theorem parseNameF_tokens :
    ∀ (fuel : Nat) (l name rest : List Char),
      parseNameF fuel l = some (name, rest) →
      ∀ w ∈ wordsOf name,
        ∃ c' r, w = c' :: r ∧ c'.isUpper = true ∧ r ≠ [] ∧ ∀ x ∈ r, x.isLower = true := by
  intro fuel
  induction fuel with
  | zero => intro l name rest h; cases h
  | succ f ih =>
    intro l name rest h
    cases l with
    | nil => cases h
    | cons c cs =>
      simp only [parseNameF] at h
      by_cases hu : c.isUpper = true
      · rw [if_pos hu] at h
        have hlow : ∀ x ∈ cs.takeWhile Char.isLower, x.isLower = true :=
          fun x hx => List.mem_takeWhile_imp hx
        by_cases hrun : (cs.takeWhile Char.isLower).isEmpty = true
        · rw [if_pos hrun] at h; cases h
        · rw [if_neg hrun] at h
          have hne : cs.takeWhile Char.isLower ≠ [] := by
            cases he : cs.takeWhile Char.isLower with
            | nil => rw [he] at hrun; exact absurd rfl hrun
            | cons a as => exact List.cons_ne_nil a as
          cases hrest : cs.dropWhile Char.isLower with
          | nil =>
            rw [hrest] at h
            injection h with h
            injection h with h1 h2
            subst h1
            exact token_good_of_upper_run hu hne hlow
          | cons d rest2 =>
            rw [hrest] at h
            dsimp only at h
            by_cases hd : isSpaceChar d = true
            · rw [if_pos hd] at h
              cases hsub : parseNameF f rest2 with
              | some pr =>
                obtain ⟨sub, rem⟩ := pr
                rw [hsub] at h
                injection h with h
                injection h with h1 h2
                subst h1
                intro w hw
                rw [wordsOf_cons_space (c :: cs.takeWhile Char.isLower) d sub
                      (by
                        intro x hx
                        rcases List.mem_cons.mp hx with rfl | hx
                        · exact isSpaceChar_eq_false_of_upper hu
                        · exact isSpaceChar_eq_false_of_lower (hlow x hx))
                      (by simp) hd] at hw
                rcases List.mem_cons.mp hw with rfl | hw
                · exact token_good_of_upper_run hu hne hlow _
                    (by
                      rw [wordsOf_no_space (c :: cs.takeWhile Char.isLower)
                            (by
                              intro x hx
                              rcases List.mem_cons.mp hx with rfl | hx
                              · exact isSpaceChar_eq_false_of_upper hu
                              · exact isSpaceChar_eq_false_of_lower (hlow x hx))
                            (by simp)]
                      exact List.mem_singleton.mpr rfl)
                · exact ih rest2 sub rem hsub w hw
              | none =>
                rw [hsub] at h
                injection h with h
                injection h with h1 h2
                subst h1
                exact token_good_of_upper_run hu hne hlow
            · rw [if_neg hd] at h
              by_cases hwd : isWordChar d = true
              · rw [if_pos hwd] at h; cases h
              · rw [if_neg hwd] at h
                injection h with h
                injection h with h1 h2
                subst h1
                exact token_good_of_upper_run hu hne hlow
      · rw [if_neg hu] at h
        cases h

theorem mem_finditerF :
    ∀ (fuel : Nat) (pw : Bool) (l name : List Char), name ∈ finditerF fuel pw l →
      ∃ fuel' l' rest', parseNameF fuel' l' = some (name, rest') := by
  intro fuel
  induction fuel with
  | zero => intro pw l name h; cases h
  | succ f ih =>
    intro pw l name h
    cases l with
    | nil => cases h
    | cons c cs =>
      cases pw with
      | true =>
        simp only [finditerF, if_pos] at h
        exact ih (isWordChar c) cs name h
      | false =>
        simp only [finditerF, Bool.false_eq_true, if_false] at h
        cases hp : parseNameF (f + 1) (c :: cs) with
        | none =>
          rw [hp] at h
          exact ih (isWordChar c) cs name h
        | some pr =>
          obtain ⟨nm, rest⟩ := pr
          rw [hp] at h
          rcases List.mem_cons.mp h with rfl | h
          · exact ⟨f + 1, c :: cs, rest, hp⟩
          · exact ih true rest name h

/-- C10: a capitalized single-letter token (such as "I" or an initial "J")
is never part of an extracted candidate: every whitespace-separated word
of every `NAME_PATTERN` match — and hence of every extracted person name —
is an uppercase letter followed by a non-empty run of lowercase letters
(so it has length at least two).  This holds independently of the
stop-word filtering. -/
theorem C10_no_single_letter_names (text name : List Char)
    (h : name ∈ nameMatches text ∨ name ∈ extract_people text) :
    ∀ w ∈ wordsOf name,
      ∃ c r, w = c :: r ∧ c.isUpper = true ∧ r ≠ [] ∧ ∀ x ∈ r, x.isLower = true := by
  have hm : name ∈ nameMatches text := by
    rcases h with h | h
    · exact h
    · exact ((extract_people_mem_iff text name).mp h).1
  obtain ⟨fuel', l', rest', hp⟩ := mem_finditerF (text.length + 1) false text name hm
  exact parseNameF_tokens fuel' l' name rest' hp

theorem C10_no_single_letter_names_witness :
    ("Alice").toList ∈ extract_people ("Alice went home").toList ∧
    ("Alice").toList ∈ wordsOf ("Alice").toList ∧
    (∃ c r, ("Alice").toList = c :: r ∧ c.isUpper = true ∧ r ≠ [] ∧
       ∀ x ∈ r, x.isLower = true) :=
  ⟨by decide, by decide,
   C10_no_single_letter_names ("Alice went home").toList ("Alice").toList
     (Or.inr (by decide)) ("Alice").toList (by decide)⟩

/-! The split/join round trip (C4). -/

theorem isSpaceChar_eq_false_of_term {c : Char} (h : isTermChar c = true) :
    isSpaceChar c = false := by
  unfold isTermChar at h
  simp only [Bool.or_eq_true, decide_eq_true_eq] at h
  rcases h with (h | h) | h <;> subst h <;> decide

theorem headNonSpace_append {l t : List Char} (h : l ≠ []) :
    headNonSpace (l ++ t) = headNonSpace l := by
  cases l with
  | nil => exact absurd rfl h
  | cons c cs => rfl

theorem headNonSpace_of_head?_eq {l : List Char} {c : Char} (h : l.head? = some c) :
    headNonSpace l = !isSpaceChar c := by
  cases l with
  | nil => cases h
  | cons a as =>
    rw [List.head?_cons] at h
    injection h with h
    subst h
    rfl

theorem splitAux_ne_nil : ∀ (input : List Char) (b : Bool) (acc : List Char),
    splitAux b acc input ≠ [] := by
  intro input
  induction input with
  | nil => intro b acc; cases b <;> exact fun h => List.cons_ne_nil _ _ h
  | cons c cs ih =>
    intro b acc
    cases b with
    | true =>
      by_cases hs : isSpaceChar c = true
      · simpa [splitAux, hs] using ih true acc
      · simpa [splitAux, hs] using ih false (c :: acc)
    | false =>
      by_cases hc : (isSpaceChar c && lastIsTerm acc) = true
      · simp [splitAux, hc]
      · simpa [splitAux, hc] using ih false (c :: acc)

theorem joinSpace_cons_of_ne_nil (x : List Char) {l : List (List Char)}
    (h : l ≠ []) : joinSpace (x :: l) = x ++ ' ' :: joinSpace l := by
  cases l with
  | nil => exact absurd rfl h
  | cons y ys => rfl

theorem splitAux_norm :
    ∀ (input : List Char),
      (∀ acc, joinSpace (splitAux false acc input) =
         acc.reverse ++ normAux false (lastIsTerm acc) input) ∧
      (∀ acc, joinSpace (splitAux true acc input) =
         acc.reverse ++ normAux true false input) := by
  intro input
  induction input with
  | nil =>
    refine ⟨fun acc => ?_, fun acc => ?_⟩ <;> simp [splitAux, normAux, joinSpace]
  | cons c cs ih =>
    obtain ⟨ih1, ih2⟩ := ih
    refine ⟨fun acc => ?_, fun acc => ?_⟩
    · by_cases hc : (isSpaceChar c && lastIsTerm acc) = true
      · simp only [splitAux, normAux, hc, if_true]
        rw [joinSpace_cons_of_ne_nil _ (splitAux_ne_nil cs true []),
            ih2 [], List.reverse_nil, List.nil_append]
      · simp only [splitAux, normAux, hc, Bool.false_eq_true, if_false]
        rw [ih1 (c :: acc)]
        simp [lastIsTerm]
    · by_cases hs : isSpaceChar c = true
      · simp only [splitAux, normAux, hs, if_true]
        exact ih2 acc
      · simp only [splitAux, normAux, hs, Bool.false_eq_true, if_false]
        rw [ih1 (c :: acc)]
        simp [lastIsTerm]

theorem splitAux_nil_eq (b : Bool) (acc : List Char) :
    splitAux b acc [] = [acc.reverse] := by
  cases b <;> rfl

theorem splitAux_false_cons (acc : List Char) (c : Char) (cs : List Char) :
    splitAux false acc (c :: cs) =
      if isSpaceChar c && lastIsTerm acc then acc.reverse :: splitAux true [] cs
      else splitAux false (c :: acc) cs := rfl

theorem splitAux_true_cons (acc : List Char) (c : Char) (cs : List Char) :
    splitAux true acc (c :: cs) =
      if isSpaceChar c then splitAux true acc cs
      else splitAux false (c :: acc) cs := rfl

theorem splitAux_pieces :
    ∀ (input : List Char),
      (∀ acc, headNonSpace (input.reverse ++ acc) = true →
         headNonSpace (acc.reverse ++ input) = true →
         (acc ≠ [] ∨ input ≠ []) →
         ∀ p ∈ splitAux false acc input,
           p ≠ [] ∧ headNonSpace p = true ∧ headNonSpace p.reverse = true) ∧
      (headNonSpace input.reverse = true → input ≠ [] →
         ∀ p ∈ splitAux true [] input,
           p ≠ [] ∧ headNonSpace p = true ∧ headNonSpace p.reverse = true) := by
  intro input
  induction input with
  | nil =>
    refine ⟨fun acc h1 h2 h3 p hp => ?_, fun _ h2 => absurd rfl h2⟩
    have hacc : acc ≠ [] := by
      rcases h3 with h | h
      · exact h
      · exact absurd rfl h
    rw [splitAux_nil_eq, List.mem_singleton] at hp
    subst hp
    refine ⟨fun hr => hacc (by simpa using hr), ?_, ?_⟩
    · rw [List.append_nil] at h2
      exact h2
    · rw [List.reverse_reverse]
      simpa using h1
  | cons c cs ih =>
    obtain ⟨ih1, ih2⟩ := ih
    constructor
    · intro acc h1 h2 h3 p hp
      by_cases hc : (isSpaceChar c && lastIsTerm acc) = true
      · have hc' := hc
        rw [Bool.and_eq_true] at hc'
        have hterm : lastIsTerm acc = true := hc'.2
        have hacc : acc ≠ [] := by
          cases acc with
          | nil => cases hterm
          | cons a as => exact List.cons_ne_nil a as
        have haccr : acc.reverse ≠ [] := fun hr => hacc (by simpa using hr)
        have hcs : cs ≠ [] := by
          intro hnil
          subst hnil
          simp [List.reverse_cons, List.reverse_nil, List.nil_append,
            List.cons_append, headNonSpace, hc'.1] at h1
        have hcsr : cs.reverse ≠ [] := fun hr => hcs (by simpa using hr)
        rw [splitAux_false_cons, if_pos hc, List.mem_cons] at hp
        rcases hp with rfl | hp
        · refine ⟨haccr, ?_, ?_⟩
          · rw [headNonSpace_append haccr] at h2
            exact h2
          · rw [List.reverse_reverse]
            cases acc with
            | nil => cases hterm
            | cons a as =>
              simp only [headNonSpace]
              rw [isSpaceChar_eq_false_of_term hterm]
              rfl
        · refine ih2 ?_ hcs p hp
          rw [List.reverse_cons, List.append_assoc] at h1
          rw [headNonSpace_append hcsr] at h1
          exact h1
      · rw [splitAux_false_cons, if_neg hc] at hp
        refine ih1 (c :: acc) ?_ ?_ (Or.inl (List.cons_ne_nil c acc)) p hp
        · rw [List.reverse_cons, List.append_assoc] at h1
          simpa using h1
        · rw [List.reverse_cons, List.append_assoc]
          simpa using h2
    · intro h1 h2 p hp
      by_cases hs : isSpaceChar c = true
      · have hcs : cs ≠ [] := by
          intro hnil
          subst hnil
          simp [List.reverse_cons, List.reverse_nil, List.nil_append,
            headNonSpace, hs] at h1
        have hcsr : cs.reverse ≠ [] := fun hr => hcs (by simpa using hr)
        rw [splitAux_true_cons, if_pos hs] at hp
        refine ih2 ?_ hcs p hp
        rw [List.reverse_cons, headNonSpace_append hcsr] at h1
        exact h1
      · have hb : isSpaceChar c = false := by
          cases hb : isSpaceChar c with
          | false => rfl
          | true => exact absurd hb hs
        rw [splitAux_true_cons, if_neg hs] at hp
        refine ih1 [c] ?_ ?_ (Or.inl (List.cons_ne_nil c [])) p hp
        · rw [List.reverse_cons] at h1
          exact h1
        · simp [List.reverse_cons, List.reverse_nil, List.nil_append,
            List.cons_append, headNonSpace, hb]

theorem headNonSpace_stripChars (l : List Char) :
    headNonSpace (stripChars l) = true := by
  unfold stripChars
  cases hs : List.rdropWhile isSpaceChar (List.dropWhile isSpaceChar l) with
  | nil => rfl
  | cons c s =>
    obtain ⟨t, ht⟩ := List.rdropWhile_prefix isSpaceChar (List.dropWhile isSpaceChar l)
    rw [hs] at ht
    have hnot := List.head?_dropWhile_not isSpaceChar l
    rw [← ht] at hnot
    simp only [List.cons_append, List.head?_cons] at hnot
    simp [headNonSpace, hnot]

theorem headNonSpace_reverse_stripChars (l : List Char) :
    headNonSpace (stripChars l).reverse = true := by
  cases hs : stripChars l with
  | nil => rfl
  | cons c s =>
    have hne : stripChars l ≠ [] := by rw [hs]; exact List.cons_ne_nil c s
    have hne' : List.rdropWhile isSpaceChar (List.dropWhile isSpaceChar l) ≠ [] := hne
    have hlast := List.rdropWhile_last_not isSpaceChar (List.dropWhile isSpaceChar l) hne'
    have hh : (stripChars l).reverse.head? = some ((stripChars l).getLast hne) := by
      rw [List.head?_reverse, List.getLast?_eq_getLast _ hne]
    rw [← hs]
    rw [headNonSpace_of_head?_eq hh]
    have hb : isSpaceChar ((stripChars l).getLast hne) = false := by
      cases hb : isSpaceChar ((stripChars l).getLast hne) with
      | false => rfl
      | true => exact absurd hb hlast
    rw [hb]
    rfl

theorem stripChars_eq_self_of (p : List Char) (h1 : headNonSpace p = true)
    (h2 : headNonSpace p.reverse = true) : stripChars p = p := by
  unfold stripChars
  have hd : List.dropWhile isSpaceChar p = p := by
    apply dropWhile_of_head_not
    intro c hc
    rw [headNonSpace_of_head?_eq hc] at h1
    cases hb : isSpaceChar c with
    | false => rfl
    | true => rw [hb] at h1; cases h1
  rw [hd]
  rw [List.rdropWhile_eq_self_iff]
  intro hl
  have hh : p.reverse.head? = some (p.getLast hl) := by
    rw [List.head?_reverse, List.getLast?_eq_getLast _ hl]
  rw [headNonSpace_of_head?_eq hh] at h2
  intro hsp
  rw [hsp] at h2
  cases h2

theorem map_strip_eq_self {l : List (List Char)} (h : ∀ p ∈ l, stripChars p = p) :
    l.map stripChars = l := by
  induction l with
  | nil => rfl
  | cons x xs ih =>
    rw [List.map_cons, h x (List.mem_cons_self x xs),
        ih (fun p hp => h p (List.mem_cons_of_mem x hp))]

/-- C4: concatenating the sentences produced by the splitter, with a single
space between consecutive sentences, reconstructs the trimmed input up to
whitespace normalization at the split boundaries: it equals the trimmed
input with every whitespace run following terminal punctuation collapsed
to a single space. -/
theorem C4_split_round_trip (text : List Char) :
    joinSpace (sentence_split text) = normBound (stripChars text) := by
  cases hs : stripChars text with
  | nil =>
    rw [sentence_split_of_strip_nil hs]
    rfl
  | cons c s =>
    have hne : stripChars text ≠ [] := by rw [hs]; exact List.cons_ne_nil c s
    have hgood : ∀ p ∈ splitAux false [] (stripChars text),
        p ≠ [] ∧ headNonSpace p = true ∧ headNonSpace p.reverse = true := by
      refine (splitAux_pieces (stripChars text)).1 [] ?_ ?_ (Or.inr hne)
      · rw [List.append_nil]
        exact headNonSpace_reverse_stripChars text
      · rw [List.reverse_nil, List.nil_append]
        exact headNonSpace_stripChars text
    have hmap : (splitAux false [] (stripChars text)).map stripChars =
        splitAux false [] (stripChars text) :=
      map_strip_eq_self (fun p hp =>
        stripChars_eq_self_of p (hgood p hp).2.1 (hgood p hp).2.2)
    have hfilter : (splitAux false [] (stripChars text)).filter (fun s => !s.isEmpty) =
        splitAux false [] (stripChars text) := by
      rw [List.filter_eq_self]
      intro p hp
      have := (hgood p hp).1
      cases hpp : p with
      | nil => exact absurd hpp this
      | cons a as => rfl
    unfold sentence_split
    rw [hmap, hfilter, (splitAux_norm (stripChars text)).1 []]
    rw [hs]
    rfl

end DigitalJournal
